import Mathlib

/-!
Shallow embedding of the block-placement / mesh-endpoint pipeline of `run.py`:
`calculate_placement`, `get_bounding_box`, `get_mesh_endpoint_positions`,
`assign_endpoints_to_single_block`, `sweep_mesh_granularity`, together with the
theorems checking the specification's claims about them.

Machine integers are modelled as `ℤ`, Python float (true) division as exact
division in `ℚ`, Python dicts as association lists with insert-or-update
semantics, and fallible code (`min` of an empty list raising `ValueError`)
returns `Option`.
-/

/-- Axis-aligned rectangle, the value `[(x1,y1),(x2,y2)]` stored in the
placements dictionary. -/
structure Rect where
  x1 : ℤ
  y1 : ℤ
  x2 : ℤ
  y2 : ℤ
deriving DecidableEq, Repr

/-- One input record. A field is `none` when the corresponding JSON key
(`'ID'`, `'LUT'`, `'Placement'`) is missing; `LUT = some none` models a JSON
`null` value. -/
structure Record where
  ID : Option ℤ
  LUT : Option (Option ℤ)
  Placement : Option (List Char)
deriving DecidableEq, Repr

/-- `[i for i, bit in enumerate(placement_bits) if bit == '1']`. -/
def positionsOf (m : List Char) : List ℕ :=
  (List.range m.length).filter (fun i => m.getD i '0' = '1')

/-- `math.ceil(a / b)` for an integer `a` and positive integer `b`
(exact rational ceiling; `/` below is `Int.ediv`). -/
def ceilDiv (a b : ℤ) : ℤ := -((-a) / b)

/-- The `max_y` loop of `calculate_placement`: starting from `0`, take the
maximum with the occupancy of every column the block occupies. -/
def maxOcc (occ : ℕ → ℤ) (p : List ℕ) : ℤ :=
  p.foldl (fun acc c => max acc (occ c)) 0

/-- Python `min` on a list of naturals (`0` on `[]`, which callers exclude). -/
def listMin (p : List ℕ) : ℕ :=
  match p with
  | [] => 0
  | a :: t => t.foldl min a

/-- Placement of one surviving block: its rectangle and the updated
column-occupancy map. -/
def placeStep (occ : ℕ → ℤ) (L : ℤ) (m : List Char) : (ℕ → ℤ) × Rect :=
  let p := positionsOf m
  let width : ℤ := (p.length : ℤ) * 135
  let height := ceilDiv L width
  let x1 : ℤ := (listMin p : ℤ) * 135
  let y1 := maxOcc occ p
  let rect : Rect := ⟨x1, y1, x1 + width, y1 + height⟩
  (fun c => if c ∈ p then rect.y2 else occ c, rect)

/-- Python dict assignment `d[k] = v` on an association list: replace the
value in place when the key exists, append otherwise. -/
def dictUpdate {β : Type} (l : List (ℤ × β)) (k : ℤ) (v : β) : List (ℤ × β) :=
  if l.any (fun q => q.1 = k) then
    l.map (fun q => if q.1 = k then (k, v) else q)
  else l ++ [(k, v)]

/-- Python `d[k]` with a default (callers only use keys present in `l`). -/
def dictGet {β : Type} (l : List (ℤ × β)) (k : ℤ) (dflt : β) : β :=
  match l.find? (fun q => q.1 = k) with
  | some q => q.2
  | none => dflt

/-- Mutable state of the `calculate_placement` loop: the `bit_y_occupied`
dictionary (as a total map, `0` for a never-touched column, which coincides
with the source's `max(0, stored values)` reads) and the `placements` dict. -/
structure PlaceState where
  occ : ℕ → ℤ
  placements : List (ℤ × Rect)

def initState : PlaceState := ⟨fun _ => 0, []⟩

/-- One iteration of the `calculate_placement` loop body. -/
def processBlock (st : PlaceState) (b : Record) : PlaceState :=
  match b.ID, b.LUT, b.Placement with
  | some id, some (some L), some m =>
    if positionsOf m = [] then st
    else
      let s := placeStep st.occ L m
      ⟨s.1, dictUpdate st.placements id s.2⟩
  | _, _, _ => st

/-- `calculate_placement`: fold the loop body over the records in input
order and return the placements dictionary. -/
def calculate_placement (data : List Record) : List (ℤ × Rect) :=
  (data.foldl processBlock initState).placements

/-- Ghost state for the same loop, additionally recording every placed block
with its column set, in placement order, without dict overwriting. -/
structure TraceState where
  occ : ℕ → ℤ
  entries : List (ℤ × List ℕ × Rect)

def initTState : TraceState := ⟨fun _ => 0, []⟩

/-- The `calculate_placement` loop body, instrumented to append a trace
entry `(id, column set, rectangle)` for every placed block. -/
def processTraced (st : TraceState) (b : Record) : TraceState :=
  match b.ID, b.LUT, b.Placement with
  | some id, some (some L), some m =>
    if positionsOf m = [] then st
    else
      let s := placeStep st.occ L m
      ⟨s.1, st.entries ++ [(id, positionsOf m, s.2)]⟩
  | _, _, _ => st

/-- The sequence of placed blocks of a `calculate_placement` run. -/
def placeTrace (data : List Record) : List (ℤ × List ℕ × Rect) :=
  (data.foldl processTraced initTState).entries

/-- The silent-skip test of the loop: `true` exactly on the records the loop
body ignores. -/
def skippedB (b : Record) : Bool :=
  match b.ID, b.LUT, b.Placement with
  | some _, some (some _), some m => positionsOf m = []
  | _, _, _ => true

/-- `true` when the record, if placed, has a positive LUT count. -/
def placedPositiveB (b : Record) : Bool :=
  match b.ID, b.LUT, b.Placement with
  | some _, some (some L), some m => positionsOf m = [] || decide (0 < L)
  | _, _, _ => true

/-- `get_bounding_box`: min/max of the rectangle corner coordinates;
`none` models the `ValueError` Python's `min` raises on an empty sequence. -/
def get_bounding_box (pl : List (ℤ × Rect)) : Option (ℤ × ℤ × ℤ × ℤ) :=
  let xs := pl.map (fun q => q.2.x1) ++ pl.map (fun q => q.2.x2)
  let ys := pl.map (fun q => q.2.y1) ++ pl.map (fun q => q.2.y2)
  match xs.min?, xs.max?, ys.min?, ys.max? with
  | some a, some b, some c, some d => some (a, b, c, d)
  | _, _, _, _ => none

/-- `get_mesh_endpoint_positions`: the `N*N` mesh endpoints, `j` outer loop,
`i` inner loop; the four bounding-box arguments are accepted and ignored,
as in the source. -/
def get_mesh_endpoint_positions (x1 x2 y1 y2 : ℤ) (mesh_dim : ℕ) :
    List (ℚ × ℚ) :=
  (List.range mesh_dim).flatMap (fun (j : ℕ) =>
    (List.range mesh_dim).map (fun (i : ℕ) =>
      ((948 : ℚ) * ((i : ℚ) + 1) / ((mesh_dim : ℚ) + 1),
       (948 : ℚ) * ((j : ℚ) + 1) / ((mesh_dim : ℚ) + 1))))

/-- `bx1 <= ex <= bx2 and by1 <= ey <= by2` (inclusive bounds). -/
def rectContainsB (r : Rect) (e : ℚ × ℚ) : Bool :=
  decide ((r.x1 : ℚ) ≤ e.1) && decide (e.1 ≤ (r.x2 : ℚ)) &&
  decide ((r.y1 : ℚ) ≤ e.2) && decide (e.2 ≤ (r.y2 : ℚ))

/-- The `assigned_eids` loop: ids of the endpoints inside the rectangle,
in enumeration order. -/
def assignedEids (r : Rect) (eps : List (ℚ × ℚ)) : List ℕ :=
  (eps.enum.filter (fun q => rectContainsB r q.2)).map Prod.fst

/-- Squared Euclidean distance `(cx - ex) ** 2 + (cy - ey) ** 2`. -/
def sqDist (c e : ℚ × ℚ) : ℚ := (c.1 - e.1) ^ 2 + (c.2 - e.2) ^ 2

/-- One iteration of the nearest-endpoint loop; the accumulator is
`none` for `(inf, None)` and `some (min_dist, closest_eid)` afterwards
(any distance satisfies `dist < inf`, so the first step always updates). -/
def nearestStep (c : ℚ × ℚ) (acc : Option (ℚ × ℕ)) (q : ℕ × (ℚ × ℚ)) :
    Option (ℚ × ℕ) :=
  match acc with
  | none => some (sqDist c q.2, q.1)
  | some md => if sqDist c q.2 < md.1 then some (sqDist c q.2, q.1) else some md

/-- The nearest-endpoint fallback loop: `closest_eid` after the scan. -/
def closest_eid (c : ℚ × ℚ) (eps : List (ℚ × ℚ)) : Option ℕ :=
  (eps.enum.foldl (nearestStep c) none).map (fun md => md.2)

/-- The rectangle centroid `((bx1 + bx2) / 2, (by1 + by2) / 2)` (Python float
division, hence exact division in `ℚ`). -/
def centroid (r : Rect) : ℚ × ℚ :=
  (((r.x1 : ℚ) + r.x2) / 2, ((r.y1 : ℚ) + r.y2) / 2)

/-- The per-block body of `assign_endpoints_to_single_block`: the contained
endpoints if any, else the singleton `[closest_eid]` (whose entry is Python's
`None` when there are no endpoints at all, hence the `Option`). -/
def blockAssign (eps : List (ℚ × ℚ)) (r : Rect) : List (Option ℕ) :=
  let a := assignedEids r eps
  if a ≠ [] then a.map some
  else [closest_eid (centroid r) eps]

/-- `assign_endpoints_to_single_block`: `none` models the `ValueError` of
`get_bounding_box` on an empty placements dict. -/
def assign_endpoints_to_single_block (placements : List (ℤ × Rect))
    (mesh_dim : ℕ) :
    Option (List (ℤ × List (Option ℕ)) × List (ℚ × ℚ)) :=
  match get_bounding_box placements with
  | none => none
  | some (x1, x2, y1, y2) =>
    let eps := get_mesh_endpoint_positions x1 x2 y1 y2 mesh_dim
    some (placements.foldl
      (fun acc q => dictUpdate acc q.1 (blockAssign eps q.2)) [], eps)

/-- Python `repr` of an endpoint id (`None` for the absent fallback). -/
def optRepr (o : Option ℕ) : String :=
  match o with
  | none => "None"
  | some n => toString n

/-- Python `repr` of the endpoint-id list written into the report. -/
def pyListRepr (l : List (Option ℕ)) : String :=
  "[" ++ String.intercalate ", " (l.map optRepr) ++ "]"

/-- The lines of one `block_to_endpoints.txt` report: blocks sorted by id,
`f"Block_{block_id} Endpoints = {endpoints}"` per line. -/
def report_lines (placements : List (ℤ × Rect)) (mesh_dim : ℕ) :
    Option (List String) :=
  (assign_endpoints_to_single_block placements mesh_dim).map (fun me =>
    ((me.1.map Prod.fst).insertionSort (· ≤ ·)).map (fun id =>
      "Block_" ++ toString id ++ " Endpoints = " ++
        pyListRepr (dictGet me.1 id [])))

/-- `sweep_mesh_granularity`, pure core: `for mesh_dim in range(1, 15)`,
one report (its granularity and its lines) per mesh dimension. -/
def sweep_mesh_granularity (placements : List (ℤ × Rect)) :
    Option (List (ℕ × List String)) :=
  (List.range' 1 14).mapM (fun n =>
    (report_lines placements n).map (fun ls => (n, ls)))

/-- The full pipeline on one input record sequence: placement, then the
granularity sweep's reports. -/
def pipeline (data : List Record) : Option (List (ℕ × List String)) :=
  sweep_mesh_granularity (calculate_placement data)

/-- Rebuild the placements dictionary from the trace by replaying the dict
assignments in placement order. -/
def dictOfTrace (entries : List (ℤ × List ℕ × Rect)) : List (ℤ × Rect) :=
  entries.foldl (fun acc e => dictUpdate acc e.1 e.2.2) []

/-- Loop invariant of the traced placement fold: occupancies are nonnegative,
every placed rectangle ends at or above the occupancy of each of its columns,
and any two placed rectangles sharing a column have disjoint `[y1, y2)`
intervals. -/
def InvT (st : TraceState) : Prop :=
  (∀ c, 0 ≤ st.occ c) ∧
  (∀ e ∈ st.entries, ∀ c ∈ e.2.1, e.2.2.y2 ≤ st.occ c) ∧
  List.Pairwise (fun e1 e2 => (∃ c, c ∈ e1.2.1 ∧ c ∈ e2.2.1) →
    (e1.2.2.y2 ≤ e2.2.2.y1 ∨ e2.2.2.y2 ≤ e1.2.2.y1)) st.entries

/-! ### Arithmetic helpers -/

theorem ceilDiv_eq_ceil (a : ℤ) (d : ℕ) : ceilDiv a (d : ℤ) = ⌈(a : ℚ) / (d : ℚ)⌉ := by
  unfold ceilDiv
  rw [show ((a : ℚ) / (d : ℚ)) = -(((-a : ℤ) : ℚ) / (d : ℚ)) by push_cast; ring,
    Int.ceil_neg, Rat.floor_intCast_div_natCast]

theorem ceilDiv_ge_one (a : ℤ) (d : ℕ) (ha : 0 < a) (hd : 0 < d) :
    1 ≤ ceilDiv a (d : ℤ) := by
  rw [ceilDiv_eq_ceil]
  have h : (0 : ℚ) < (a : ℚ) / (d : ℚ) := by
    apply div_pos
    · exact_mod_cast ha
    · exact_mod_cast hd
  have h2 : (0 : ℤ) < ⌈(a : ℚ) / (d : ℚ)⌉ := Int.lt_ceil.mpr (by push_cast; exact h)
  omega

theorem ceilDiv_nonpos (a : ℤ) (d : ℕ) (ha : a ≤ 0) :
    ceilDiv a (d : ℤ) ≤ 0 := by
  rw [ceilDiv_eq_ceil]
  have : (a : ℚ) / (d : ℚ) ≤ 0 := by
    apply div_nonpos_of_nonpos_of_nonneg
    · exact_mod_cast ha
    · positivity
  exact Int.ceil_le.mpr (by exact_mod_cast this)

theorem ceilDiv_zero_left (d : ℤ) : ceilDiv 0 d = 0 := by
  unfold ceilDiv
  simp

/-! ### Fold max / min helpers -/

theorem foldl_max_init_le (occ : ℕ → ℤ) :
    ∀ (p : List ℕ) (a : ℤ), a ≤ p.foldl (fun acc c => max acc (occ c)) a := by
  intro p
  induction p with
  | nil => intro a; simp
  | cons c t ih =>
    intro a
    calc a ≤ max a (occ c) := le_max_left _ _
    _ ≤ _ := ih _

theorem foldl_max_mem_le (occ : ℕ → ℤ) :
    ∀ (p : List ℕ) (a : ℤ) (c : ℕ), c ∈ p →
      occ c ≤ p.foldl (fun acc d => max acc (occ d)) a := by
  intro p
  induction p with
  | nil => intro a c hc; cases hc
  | cons e t ih =>
    intro a c hc
    rcases List.mem_cons.mp hc with h | h
    · subst h
      calc occ c ≤ max a (occ c) := le_max_right _ _
      _ ≤ _ := foldl_max_init_le occ t _
    · exact ih _ c h

theorem foldl_max_cases (occ : ℕ → ℤ) :
    ∀ (p : List ℕ) (a : ℤ),
      p.foldl (fun acc d => max acc (occ d)) a = a ∨
      ∃ c ∈ p, p.foldl (fun acc d => max acc (occ d)) a = occ c := by
  intro p
  induction p with
  | nil => intro a; left; rfl
  | cons e t ih =>
    intro a
    rcases ih (max a (occ e)) with h | ⟨c, hc, h⟩
    · simp only [List.foldl_cons] at *
      rcases max_choice a (occ e) with hm | hm
      · left; rw [h, hm]
      · right; exact ⟨e, List.mem_cons_self _ _, by rw [h, hm]⟩
    · right
      exact ⟨c, List.mem_cons_of_mem _ hc, h⟩

theorem maxOcc_nonneg (occ : ℕ → ℤ) (p : List ℕ) : 0 ≤ maxOcc occ p :=
  foldl_max_init_le occ p 0

theorem maxOcc_mem_le (occ : ℕ → ℤ) (p : List ℕ) (c : ℕ) (hc : c ∈ p) :
    occ c ≤ maxOcc occ p :=
  foldl_max_mem_le occ p 0 c hc

theorem maxOcc_cases (occ : ℕ → ℤ) (p : List ℕ) :
    maxOcc occ p = 0 ∨ ∃ c ∈ p, maxOcc occ p = occ c :=
  foldl_max_cases occ p 0

theorem foldl_min_le_init :
    ∀ (p : List ℕ) (a : ℕ), p.foldl min a ≤ a := by
  intro p
  induction p with
  | nil => intro a; simp
  | cons c t ih =>
    intro a
    calc t.foldl min (min a c) ≤ min a c := ih _
    _ ≤ a := min_le_left _ _

theorem foldl_min_le_mem :
    ∀ (p : List ℕ) (a c : ℕ), c ∈ p → p.foldl min a ≤ c := by
  intro p
  induction p with
  | nil => intro a c hc; cases hc
  | cons e t ih =>
    intro a c hc
    rcases List.mem_cons.mp hc with h | h
    · subst h
      calc t.foldl min (min a c) ≤ min a c := foldl_min_le_init t _
      _ ≤ c := min_le_right _ _
    · exact ih _ c h

theorem foldl_min_mem :
    ∀ (p : List ℕ) (a : ℕ), p.foldl min a = a ∨ p.foldl min a ∈ p := by
  intro p
  induction p with
  | nil => intro a; left; rfl
  | cons e t ih =>
    intro a
    rcases ih (min a e) with h | h
    · simp only [List.foldl_cons] at *
      rcases min_choice a e with hm | hm
      · left; rw [h, hm]
      · right; rw [h, hm]; exact List.mem_cons_self _ _
    · right; exact List.mem_cons_of_mem _ h

theorem listMin_mem (p : List ℕ) (hp : p ≠ []) : listMin p ∈ p := by
  match p with
  | [] => exact absurd rfl hp
  | a :: t =>
    rcases foldl_min_mem t a with h | h
    · rw [listMin, h]; exact List.mem_cons_self _ _
    · exact List.mem_cons_of_mem _ h

theorem listMin_le (p : List ℕ) (c : ℕ) (hc : c ∈ p) : listMin p ≤ c := by
  match p with
  | [] => cases hc
  | a :: t =>
    rcases List.mem_cons.mp hc with h | h
    · subst h; exact foldl_min_le_init t c
    · exact foldl_min_le_mem t a c h

/-! ### Unfolding lemmas for the loop bodies -/

theorem placeStep_rect (occ : ℕ → ℤ) (L : ℤ) (m : List Char) :
    (placeStep occ L m).2 =
      ⟨(listMin (positionsOf m) : ℤ) * 135, maxOcc occ (positionsOf m),
       (listMin (positionsOf m) : ℤ) * 135 + ((positionsOf m).length : ℤ) * 135,
       maxOcc occ (positionsOf m) +
         ceilDiv L (((positionsOf m).length : ℤ) * 135)⟩ := rfl

theorem placeStep_occ (occ : ℕ → ℤ) (L : ℤ) (m : List Char) (c : ℕ) :
    (placeStep occ L m).1 c =
      if c ∈ positionsOf m then (placeStep occ L m).2.y2 else occ c := rfl

theorem processBlock_skip (st : PlaceState) (b : Record)
    (hb : skippedB b = true) : processBlock st b = st := by
  obtain ⟨bid, blut, bpl⟩ := b
  rcases bid with _ | id <;> rcases blut with _ | blut <;>
    try rcases blut with _ | L
  all_goals rcases bpl with _ | m
  all_goals simp_all [skippedB, processBlock]

theorem processTraced_skip (st : TraceState) (b : Record)
    (hb : skippedB b = true) : processTraced st b = st := by
  obtain ⟨bid, blut, bpl⟩ := b
  rcases bid with _ | id <;> rcases blut with _ | blut <;>
    try rcases blut with _ | L
  all_goals rcases bpl with _ | m
  all_goals simp_all [skippedB, processTraced]

theorem not_skipped_shape (b : Record) (hb : skippedB b = false) :
    ∃ id L m, b = ⟨some id, some (some L), some m⟩ ∧ positionsOf m ≠ [] := by
  obtain ⟨bid, blut, bpl⟩ := b
  rcases bid with _ | id <;> rcases blut with _ | blut <;>
    try rcases blut with _ | L
  all_goals rcases bpl with _ | m
  all_goals simp_all [skippedB]
  exact ⟨id, L, m, ⟨rfl, rfl, rfl⟩, hb⟩

theorem processBlock_place (st : PlaceState) (id : ℤ) (L : ℤ) (m : List Char)
    (hp : positionsOf m ≠ []) :
    processBlock st ⟨some id, some (some L), some m⟩ =
      ⟨(placeStep st.occ L m).1,
       dictUpdate st.placements id (placeStep st.occ L m).2⟩ := by
  simp [processBlock, hp]

theorem processTraced_place (st : TraceState) (id : ℤ) (L : ℤ) (m : List Char)
    (hp : positionsOf m ≠ []) :
    processTraced st ⟨some id, some (some L), some m⟩ =
      ⟨(placeStep st.occ L m).1,
       st.entries ++ [(id, positionsOf m, (placeStep st.occ L m).2)]⟩ := by
  simp [processTraced, hp]

theorem placedPositiveB_pos (id : ℤ) (L : ℤ) (m : List Char)
    (hb : placedPositiveB ⟨some id, some (some L), some m⟩ = true)
    (hp : positionsOf m ≠ []) : 0 < L := by
  simp_all [placedPositiveB]

/-! ### dictUpdate lemmas -/

theorem mem_dictUpdate {β : Type} (l : List (ℤ × β)) (k : ℤ) (v : β)
    (q : ℤ × β) (hq : q ∈ dictUpdate l k v) : q = (k, v) ∨ q ∈ l := by
  unfold dictUpdate at hq
  split at hq
  · rcases List.mem_map.mp hq with ⟨p, hp, he⟩
    by_cases hpk : p.1 = k
    · rw [if_pos hpk] at he
      left; exact he.symm
    · rw [if_neg hpk] at he
      right; rwa [← he]
  · rcases List.mem_append.mp hq with h | h
    · right; exact h
    · left; simpa using h

theorem dictOfTrace_append (l : List (ℤ × List ℕ × Rect))
    (e : ℤ × List ℕ × Rect) :
    dictOfTrace (l ++ [e]) = dictUpdate (dictOfTrace l) e.1 e.2.2 := by
  unfold dictOfTrace
  rw [List.foldl_append]
  rfl

theorem mem_foldl_dictUpdate (entries : List (ℤ × List ℕ × Rect)) :
    ∀ (acc : List (ℤ × Rect)) (q : ℤ × Rect),
      q ∈ entries.foldl (fun a e => dictUpdate a e.1 e.2.2) acc →
      q ∈ acc ∨ ∃ e ∈ entries, e.1 = q.1 ∧ e.2.2 = q.2 := by
  induction entries with
  | nil => intro acc q hq; left; exact hq
  | cons e t ih =>
    intro acc q hq
    rw [List.foldl_cons] at hq
    rcases ih _ q hq with h | ⟨e', he', h1, h2⟩
    · rcases mem_dictUpdate _ _ _ _ h with h' | h'
      · subst h'
        right; exact ⟨e, List.mem_cons_self _ _, rfl, rfl⟩
      · left; exact h'
    · right; exact ⟨e', List.mem_cons_of_mem _ he', h1, h2⟩

theorem mem_dictOfTrace (entries : List (ℤ × List ℕ × Rect)) (q : ℤ × Rect)
    (hq : q ∈ dictOfTrace entries) :
    ∃ e ∈ entries, e.1 = q.1 ∧ e.2.2 = q.2 := by
  rcases mem_foldl_dictUpdate entries [] q hq with h | h
  · cases h
  · exact h

/-! ### The shelf invariant -/

theorem invT_step (st : TraceState) (b : Record)
    (hb : placedPositiveB b = true) (h : InvT st) :
    InvT (processTraced st b) := by
  by_cases hs : skippedB b = true
  · rw [processTraced_skip st b hs]; exact h
  obtain ⟨id, L, m, rfl, hp⟩ := not_skipped_shape b (by simpa using hs)
  have hL : 0 < L := placedPositiveB_pos id L m hb hp
  rw [processTraced_place st id L m hp]
  obtain ⟨hocc, hbound, hpw⟩ := h
  have hplen : 0 < (positionsOf m).length := List.length_pos.mpr hp
  have hh : 1 ≤ ceilDiv L (((positionsOf m).length : ℤ) * 135) := by
    have hcast : (((positionsOf m).length : ℤ) * 135) =
        (((positionsOf m).length * 135 : ℕ) : ℤ) := by push_cast; ring
    rw [hcast]
    exact ceilDiv_ge_one L ((positionsOf m).length * 135) hL (by positivity)
  have hy1 : (placeStep st.occ L m).2.y1 = maxOcc st.occ (positionsOf m) := by
    rw [placeStep_rect]
  have hy2 : (placeStep st.occ L m).2.y2 =
      maxOcc st.occ (positionsOf m) +
        ceilDiv L (((positionsOf m).length : ℤ) * 135) := by
    rw [placeStep_rect]
  refine ⟨?_, ?_, ?_⟩
  · intro c
    show 0 ≤ (placeStep st.occ L m).1 c
    rw [placeStep_occ]
    split
    · rw [hy2]
      have := maxOcc_nonneg st.occ (positionsOf m)
      omega
    · exact hocc c
  · intro e he c hc
    rcases List.mem_append.mp he with he' | he'
    · show e.2.2.y2 ≤ (placeStep st.occ L m).1 c
      rw [placeStep_occ]
      split
      · rename_i hcp
        have h1 : e.2.2.y2 ≤ st.occ c := hbound e he' c hc
        have h2 : st.occ c ≤ maxOcc st.occ (positionsOf m) :=
          maxOcc_mem_le st.occ (positionsOf m) c hcp
        rw [hy2]
        omega
      · exact hbound e he' c hc
    · have he2 : e = (id, positionsOf m, (placeStep st.occ L m).2) := by
        simpa using he'
      subst he2
      show (placeStep st.occ L m).2.y2 ≤ (placeStep st.occ L m).1 c
      rw [placeStep_occ]
      simp only at hc
      rw [if_pos hc]
  · rw [List.pairwise_append]
    refine ⟨hpw, List.pairwise_singleton _ _, ?_⟩
    intro e1 he1 e2 he2 hshare
    have he2' : e2 = (id, positionsOf m, (placeStep st.occ L m).2) := by
      simpa using he2
    subst he2'
    rcases hshare with ⟨c, hc1, hc2⟩
    simp only at hc2
    left
    calc e1.2.2.y2 ≤ st.occ c := hbound e1 he1 c hc1
    _ ≤ maxOcc st.occ (positionsOf m) :=
        maxOcc_mem_le st.occ (positionsOf m) c hc2
    _ = (placeStep st.occ L m).2.y1 := hy1.symm

theorem invT_init : InvT initTState := by
  refine ⟨fun c => le_refl 0, ?_, ?_⟩
  · intro e he; cases he
  · exact List.Pairwise.nil

theorem invT_fold (data : List Record) :
    ∀ st : TraceState, (∀ b ∈ data, placedPositiveB b = true) → InvT st →
      InvT (data.foldl processTraced st) := by
  induction data with
  | nil => intro st _ h; exact h
  | cons b t ih =>
    intro st hb h
    exact ih _ (fun r hr => hb r (List.mem_cons_of_mem _ hr))
      (invT_step st b (hb b (List.mem_cons_self _ _)) h)

theorem place_eq_trace (data : List Record) :
    ∀ (s : PlaceState) (t : TraceState), s.occ = t.occ →
      s.placements = dictOfTrace t.entries →
      (data.foldl processBlock s).occ = (data.foldl processTraced t).occ ∧
      (data.foldl processBlock s).placements =
        dictOfTrace (data.foldl processTraced t).entries := by
  induction data with
  | nil => intro s t h1 h2; exact ⟨h1, h2⟩
  | cons b d ih =>
    intro s t h1 h2
    by_cases hs : skippedB b = true
    · rw [List.foldl_cons, List.foldl_cons, processBlock_skip s b hs,
        processTraced_skip t b hs]
      exact ih s t h1 h2
    obtain ⟨id, L, m, rfl, hp⟩ := not_skipped_shape b (by simpa using hs)
    rw [List.foldl_cons, List.foldl_cons, processBlock_place s id L m hp,
      processTraced_place t id L m hp]
    apply ih
    · show (placeStep s.occ L m).1 = (placeStep t.occ L m).1
      rw [h1]
    · show dictUpdate s.placements id (placeStep s.occ L m).2 =
        dictOfTrace (t.entries ++ [(id, positionsOf m, (placeStep t.occ L m).2)])
      rw [dictOfTrace_append, ← h2, h1]

theorem calculate_placement_eq_trace (data : List Record) :
    calculate_placement data = dictOfTrace (placeTrace data) :=
  (place_eq_trace data initState initTState rfl rfl).2

/-- C1. In any run in which every placed block has a positive LUT count, any
two placed blocks whose column sets intersect get disjoint `[y1, y2)`
intervals, and every entry of the placement map returned by
`calculate_placement` carries the rectangle of one of the placed blocks. -/
theorem claim_C1 (data : List Record)
    (hpos : ∀ b ∈ data, placedPositiveB b = true) :
    List.Pairwise (fun e1 e2 => (∃ c, c ∈ e1.2.1 ∧ c ∈ e2.2.1) →
        (e1.2.2.y2 ≤ e2.2.2.y1 ∨ e2.2.2.y2 ≤ e1.2.2.y1)) (placeTrace data) ∧
    ∀ q ∈ calculate_placement data,
      ∃ e ∈ placeTrace data, e.1 = q.1 ∧ e.2.2 = q.2 := by
  constructor
  · exact (invT_fold data initTState hpos invT_init).2.2
  · intro q hq
    rw [calculate_placement_eq_trace] at hq
    exact mem_dictOfTrace _ q hq

/-- Witness for C1: the spec's two-block stacking scenario
(`Placement:"1"`, LUT 200 then LUT 100). -/
theorem claim_C1_witness :
    (∀ b ∈ [(⟨some 1, some (some 200), some ['1']⟩ : Record),
            ⟨some 2, some (some 100), some ['1']⟩], placedPositiveB b = true) ∧
    (List.Pairwise (fun e1 e2 => (∃ c, c ∈ e1.2.1 ∧ c ∈ e2.2.1) →
        (e1.2.2.y2 ≤ e2.2.2.y1 ∨ e2.2.2.y2 ≤ e1.2.2.y1))
        (placeTrace [⟨some 1, some (some 200), some ['1']⟩,
                     ⟨some 2, some (some 100), some ['1']⟩]) ∧
      ∀ q ∈ calculate_placement [⟨some 1, some (some 200), some ['1']⟩,
                                 ⟨some 2, some (some 100), some ['1']⟩],
        ∃ e ∈ placeTrace [⟨some 1, some (some 200), some ['1']⟩,
                          ⟨some 2, some (some 100), some ['1']⟩],
          e.1 = q.1 ∧ e.2.2 = q.2) :=
  ⟨by decide, claim_C1 _ (by decide)⟩

/-- C2 as frozen is refuted by a run containing an earlier negative-LUT
block: the code computes `y1` as the max of `0` and the column occupancies,
so after block 1 (`LUT = -500`, mask `"1"`) drives column 0's occupancy to
`-3`, block 2 (`LUT = 135`, mask `"1"`, ColumnSet `{0}`) is recorded with
`y1 = 0`, not the claimed `max over ColumnSet of occupancy = -3`. -/
theorem claim_C2_counterexample :
    positionsOf ['1'] = [0] ∧
    (List.foldl processBlock initState
        [⟨some 1, some (some (-500)), some ['1']⟩]).occ 0 = -3 ∧
    (2, (⟨0, 0, 135, 1⟩ : Rect)) ∈
      calculate_placement [⟨some 1, some (some (-500)), some ['1']⟩,
                           ⟨some 2, some (some 135), some ['1']⟩] ∧
    (0 : ℤ) ≠ -3 := by
  refine ⟨by decide, by decide, by decide, by decide⟩

/-- C2 (amended: `y1` is the maximum of `0` and the column-occupancy values
of the block's columns; with only positive-LUT blocks before it this equals
the claimed maximum over the ColumnSet). For a placed block with `lutCount
L > 0`: the recorded rectangle has width `|ColumnSet|*135`,
`x1 = min(ColumnSet)*135`, height `ceil(L / width) >= 1`, `y1` the maximum
of `0` and the occupancies of its columns at the moment it is processed,
and afterwards the occupancy of exactly its columns equals `y2`. -/
theorem claim_C2_amended (st : PlaceState) (b : Record) (id : ℤ) (L : ℤ)
    (m : List Char) (hb : b = ⟨some id, some (some L), some m⟩)
    (hp : positionsOf m ≠ []) (hL : 0 < L) :
    ∃ rect : Rect,
      (processBlock st b).placements = dictUpdate st.placements id rect ∧
      rect.x2 - rect.x1 = ((positionsOf m).length : ℤ) * 135 ∧
      (∃ c0 ∈ positionsOf m, (∀ c ∈ positionsOf m, c0 ≤ c) ∧
        rect.x1 = (c0 : ℤ) * 135) ∧
      rect.y2 - rect.y1 = ⌈(L : ℚ) / (((positionsOf m).length : ℚ) * 135)⌉ ∧
      1 ≤ rect.y2 - rect.y1 ∧
      0 ≤ rect.y1 ∧
      (∀ c ∈ positionsOf m, st.occ c ≤ rect.y1) ∧
      (rect.y1 = 0 ∨ ∃ c ∈ positionsOf m, rect.y1 = st.occ c) ∧
      (∀ c ∈ positionsOf m, (processBlock st b).occ c = rect.y2) ∧
      (∀ c, c ∉ positionsOf m → (processBlock st b).occ c = st.occ c) := by
  subst hb
  rw [processBlock_place st id L m hp]
  refine ⟨(placeStep st.occ L m).2, rfl, ?_, ?_, ?_, ?_, ?_, ?_, ?_, ?_, ?_⟩
  · rw [placeStep_rect]; ring
  · refine ⟨listMin (positionsOf m), listMin_mem _ hp,
      fun c hc => listMin_le _ c hc, ?_⟩
    rw [placeStep_rect]
  · rw [placeStep_rect]
    have hcast : (((positionsOf m).length : ℤ) * 135) =
        (((positionsOf m).length * 135 : ℕ) : ℤ) := by push_cast; ring
    have hcast2 : ((((positionsOf m).length * 135 : ℕ)) : ℚ) =
        ((positionsOf m).length : ℚ) * 135 := by push_cast; ring
    simp only [Rect.y2, Rect.y1]
    rw [add_sub_cancel_left, hcast, ceilDiv_eq_ceil, hcast2]
  · rw [placeStep_rect]
    simp only [Rect.y2, Rect.y1]
    rw [add_sub_cancel_left]
    have hcast : (((positionsOf m).length : ℤ) * 135) =
        (((positionsOf m).length * 135 : ℕ) : ℤ) := by push_cast; ring
    rw [hcast]
    exact ceilDiv_ge_one L _ hL
      (by have := List.length_pos.mpr hp; positivity)
  · rw [placeStep_rect]
    exact maxOcc_nonneg st.occ (positionsOf m)
  · intro c hc
    rw [placeStep_rect]
    exact maxOcc_mem_le st.occ (positionsOf m) c hc
  · rw [placeStep_rect]
    simp only [Rect.y1]
    exact maxOcc_cases st.occ (positionsOf m)
  · intro c hc
    show (placeStep st.occ L m).1 c = _
    rw [placeStep_occ, if_pos hc]
  · intro c hc
    show (placeStep st.occ L m).1 c = _
    rw [placeStep_occ, if_neg hc]

/-- Witness for the amended C2: the spec's scenario block
`{ID:1, LUT:270, Placement:"11"}` from the initial state. -/
theorem claim_C2_amended_witness :
    ((⟨some 1, some (some 270), some ['1', '1']⟩ : Record) =
        ⟨some 1, some (some 270), some ['1', '1']⟩ ∧
      positionsOf ['1', '1'] ≠ [] ∧ (0 : ℤ) < 270) ∧
    ∃ rect : Rect,
      (processBlock initState
          ⟨some 1, some (some 270), some ['1', '1']⟩).placements =
        dictUpdate initState.placements 1 rect ∧
      rect.x2 - rect.x1 = ((positionsOf ['1', '1']).length : ℤ) * 135 ∧
      (∃ c0 ∈ positionsOf ['1', '1'],
        (∀ c ∈ positionsOf ['1', '1'], c0 ≤ c) ∧ rect.x1 = (c0 : ℤ) * 135) ∧
      rect.y2 - rect.y1 =
        ⌈(270 : ℚ) / (((positionsOf ['1', '1']).length : ℚ) * 135)⌉ ∧
      1 ≤ rect.y2 - rect.y1 ∧
      0 ≤ rect.y1 ∧
      (∀ c ∈ positionsOf ['1', '1'], initState.occ c ≤ rect.y1) ∧
      (rect.y1 = 0 ∨ ∃ c ∈ positionsOf ['1', '1'], rect.y1 = initState.occ c) ∧
      (∀ c ∈ positionsOf ['1', '1'],
        (processBlock initState
            ⟨some 1, some (some 270), some ['1', '1']⟩).occ c = rect.y2) ∧
      (∀ c, c ∉ positionsOf ['1', '1'] →
        (processBlock initState
            ⟨some 1, some (some 270), some ['1', '1']⟩).occ c =
          initState.occ c) :=
  ⟨⟨rfl, by decide, by decide⟩,
    claim_C2_amended initState _ 1 270 ['1', '1'] rfl (by decide) (by decide)⟩

/-! ### Mesh endpoint lemmas -/

theorem flatMap_row_getElem {α : Type} (N : ℕ) (row : ℕ → List α)
    (hlen : ∀ j, (row j).length = N) :
    ∀ (M s i j : ℕ), i < N → j < M →
      ((List.range' s M).flatMap row)[j * N + i]? = (row (s + j))[i]? := by
  intro M
  induction M with
  | zero => intro s i j hi hj; exact absurd hj (Nat.not_lt_zero j)
  | succ M ih =>
    intro s i j hi hj
    rw [List.range'_succ, List.flatMap_cons]
    rcases Nat.eq_zero_or_pos j with hj0 | hj0
    · subst hj0
      rw [List.getElem?_append_left (by rw [hlen]; omega)]
      simp
    · obtain ⟨j', rfl⟩ : ∃ j', j = j' + 1 := ⟨j - 1, by omega⟩
      have hexp : (j' + 1) * N = j' * N + N := by ring
      rw [List.getElem?_append_right (by rw [hlen, hexp]; omega)]
      have harith : (j' + 1) * N + i - (row s).length = j' * N + i := by
        rw [hlen, hexp]; omega
      rw [harith, ih (s + 1) i j' hi (by omega)]
      have hs : s + 1 + j' = s + (j' + 1) := by omega
      rw [hs]

theorem mesh_length (x1 x2 y1 y2 : ℤ) (N : ℕ) :
    (get_mesh_endpoint_positions x1 x2 y1 y2 N).length = N * N := by
  unfold get_mesh_endpoint_positions
  rw [List.length_flatMap]
  simp only [Function.comp_def, List.length_map, List.length_range]
  rw [List.map_const', List.sum_replicate, List.length_range, smul_eq_mul]

theorem mesh_getElem (x1 x2 y1 y2 : ℤ) (N i j : ℕ) (hi : i < N) (hj : j < N) :
    (get_mesh_endpoint_positions x1 x2 y1 y2 N)[j * N + i]? =
      some ((948 : ℚ) * ((i : ℚ) + 1) / ((N : ℚ) + 1),
            (948 : ℚ) * ((j : ℚ) + 1) / ((N : ℚ) + 1)) := by
  unfold get_mesh_endpoint_positions
  rw [List.range_eq_range']
  rw [flatMap_row_getElem N _ (fun r => by simp) N 0 i j hi hj]
  rw [List.getElem?_map, List.getElem?_range' 0 1 hi]
  simp

theorem mesh_mem_bounds (x1 x2 y1 y2 : ℤ) (N : ℕ) (p : ℚ × ℚ)
    (hp : p ∈ get_mesh_endpoint_positions x1 x2 y1 y2 N) :
    0 < p.1 ∧ p.1 < 948 ∧ 0 < p.2 ∧ p.2 < 948 := by
  unfold get_mesh_endpoint_positions at hp
  rcases List.mem_flatMap.mp hp with ⟨j, hj, hp2⟩
  rcases List.mem_map.mp hp2 with ⟨i, hi, rfl⟩
  rw [List.mem_range] at hj hi
  have hiN : (i : ℚ) < (N : ℚ) := by exact_mod_cast hi
  have hjN : (j : ℚ) < (N : ℚ) := by exact_mod_cast hj
  have hden : (0 : ℚ) < (N : ℚ) + 1 := by positivity
  refine ⟨?_, ?_, ?_, ?_⟩
  · apply div_pos (by positivity) hden
  · rw [div_lt_iff₀ hden]
    nlinarith
  · apply div_pos (by positivity) hden
  · rw [div_lt_iff₀ hden]
    nlinarith

/-- C3. For any mesh granularity `N >= 1` and any bounding-box arguments,
`get_mesh_endpoint_positions` returns exactly `N*N` endpoints; the endpoint
with id `j*N+i` (ids being list positions, `j` outer, `i` inner) sits at
`(948*(i+1)/(N+1), 948*(j+1)/(N+1))`; every coordinate is strictly between
`0` and `948`; and the result is independent of the bounding-box
arguments. -/
theorem claim_C3 (x1 x2 y1 y2 x1' x2' y1' y2' : ℤ) (N : ℕ) (hN : 1 ≤ N) :
    (get_mesh_endpoint_positions x1 x2 y1 y2 N).length = N * N ∧
    (∀ i j : ℕ, i < N → j < N →
      (get_mesh_endpoint_positions x1 x2 y1 y2 N)[j * N + i]? =
        some ((948 : ℚ) * ((i : ℚ) + 1) / ((N : ℚ) + 1),
              (948 : ℚ) * ((j : ℚ) + 1) / ((N : ℚ) + 1))) ∧
    (∀ p ∈ get_mesh_endpoint_positions x1 x2 y1 y2 N,
      0 < p.1 ∧ p.1 < 948 ∧ 0 < p.2 ∧ p.2 < 948) ∧
    get_mesh_endpoint_positions x1 x2 y1 y2 N =
      get_mesh_endpoint_positions x1' x2' y1' y2' N :=
  ⟨mesh_length x1 x2 y1 y2 N,
   fun i j hi hj => mesh_getElem x1 x2 y1 y2 N i j hi hj,
   fun p hp => mesh_mem_bounds x1 x2 y1 y2 N p hp,
   rfl⟩

/-- Witness for C3 at `N = 1` with two different bounding boxes; the single
endpoint is `(474, 474)` as in the spec's scenario. -/
theorem claim_C3_witness :
    (1 ≤ 1) ∧
    ((get_mesh_endpoint_positions 0 0 0 0 1).length = 1 * 1 ∧
     (∀ i j : ℕ, i < 1 → j < 1 →
       (get_mesh_endpoint_positions 0 0 0 0 1)[j * 1 + i]? =
         some ((948 : ℚ) * ((i : ℚ) + 1) / ((1 : ℚ) + 1),
               (948 : ℚ) * ((j : ℚ) + 1) / ((1 : ℚ) + 1))) ∧
     (∀ p ∈ get_mesh_endpoint_positions 0 0 0 0 1,
       0 < p.1 ∧ p.1 < 948 ∧ 0 < p.2 ∧ p.2 < 948) ∧
     get_mesh_endpoint_positions 0 0 0 0 1 =
       get_mesh_endpoint_positions 1 2 3 4 1) ∧
    get_mesh_endpoint_positions 0 0 0 0 1 = [((474 : ℚ), (474 : ℚ))] :=
  ⟨by decide, claim_C3 0 0 0 0 1 2 3 4 1 (by decide), by
    show List.flatMap _ _ = _
    norm_num [List.flatMap, List.range, List.range.loop]⟩

/-! ### Bounding box lemmas -/

theorem min?_spec_int (xs : List ℤ) (hx : xs ≠ []) :
    ∃ a, xs.min? = some a ∧ a ∈ xs ∧ ∀ v ∈ xs, a ≤ v := by
  cases hxs : xs.min? with
  | none => rw [List.min?_eq_none_iff] at hxs; exact absurd hxs hx
  | some a =>
    refine ⟨a, rfl, List.min?_mem (fun x y => min_choice x y) hxs,
      fun v hv => ?_⟩
    exact (List.le_min?_iff (fun x y z => le_min_iff) hxs).mp (le_refl a) v hv

theorem max?_spec_int (xs : List ℤ) (hx : xs ≠ []) :
    ∃ a, xs.max? = some a ∧ a ∈ xs ∧ ∀ v ∈ xs, v ≤ a := by
  cases hxs : xs.max? with
  | none => rw [List.max?_eq_none_iff] at hxs; exact absurd hxs hx
  | some a =>
    refine ⟨a, rfl, List.max?_mem (fun x y => max_choice x y) hxs,
      fun v hv => ?_⟩
    exact (List.max?_le_iff (fun x y z => max_le_iff) hxs).mp (le_refl a) v hv

theorem get_bounding_box_eq (pl : List (ℤ × Rect)) (hpl : pl ≠ []) :
    ∃ a b c d, get_bounding_box pl = some (a, b, c, d) ∧
      (a ∈ pl.map (fun q => q.2.x1) ++ pl.map (fun q => q.2.x2) ∧
        ∀ v ∈ pl.map (fun q => q.2.x1) ++ pl.map (fun q => q.2.x2), a ≤ v) ∧
      (b ∈ pl.map (fun q => q.2.x1) ++ pl.map (fun q => q.2.x2) ∧
        ∀ v ∈ pl.map (fun q => q.2.x1) ++ pl.map (fun q => q.2.x2), v ≤ b) ∧
      (c ∈ pl.map (fun q => q.2.y1) ++ pl.map (fun q => q.2.y2) ∧
        ∀ v ∈ pl.map (fun q => q.2.y1) ++ pl.map (fun q => q.2.y2), c ≤ v) ∧
      (d ∈ pl.map (fun q => q.2.y1) ++ pl.map (fun q => q.2.y2) ∧
        ∀ v ∈ pl.map (fun q => q.2.y1) ++ pl.map (fun q => q.2.y2), v ≤ d) := by
  have hxs : pl.map (fun q => q.2.x1) ++ pl.map (fun q => q.2.x2) ≠ [] := by
    intro h
    rcases List.append_eq_nil.mp h with ⟨h1, _⟩
    exact hpl (List.map_eq_nil_iff.mp h1)
  have hys : pl.map (fun q => q.2.y1) ++ pl.map (fun q => q.2.y2) ≠ [] := by
    intro h
    rcases List.append_eq_nil.mp h with ⟨h1, _⟩
    exact hpl (List.map_eq_nil_iff.mp h1)
  obtain ⟨a, ha, hamem, hale⟩ := min?_spec_int _ hxs
  obtain ⟨b, hb, hbmem, hble⟩ := max?_spec_int _ hxs
  obtain ⟨c, hc, hcmem, hcle⟩ := min?_spec_int _ hys
  obtain ⟨d, hd, hdmem, hdle⟩ := max?_spec_int _ hys
  refine ⟨a, b, c, d, ?_, ⟨hamem, hale⟩, ⟨hbmem, hble⟩, ⟨hcmem, hcle⟩,
    ⟨hdmem, hdle⟩⟩
  simp only [get_bounding_box]
  rw [ha, hb, hc, hd]

theorem get_bounding_box_some (pl : List (ℤ × Rect)) (hpl : pl ≠ []) :
    ∃ t, get_bounding_box pl = some t := by
  obtain ⟨a, b, c, d, h, _⟩ := get_bounding_box_eq pl hpl
  exact ⟨(a, b, c, d), h⟩

/-- C6. `get_bounding_box` of a non-empty placement map is the min/max of
the rectangle corner coordinates (for a single-block map, exactly that
block's corners); on the empty map it fails with the empty-input error
(modelled as `none`) instead of returning a value. -/
theorem claim_C6 (pl : List (ℤ × Rect)) (hpl : pl ≠ []) (id : ℤ) (r : Rect)
    (hr : r.x1 ≤ r.x2 ∧ r.y1 ≤ r.y2) :
    get_bounding_box [] = none ∧
    (∃ a b c d, get_bounding_box pl = some (a, b, c, d) ∧
      (a ∈ pl.map (fun q => q.2.x1) ++ pl.map (fun q => q.2.x2) ∧
        ∀ v ∈ pl.map (fun q => q.2.x1) ++ pl.map (fun q => q.2.x2), a ≤ v) ∧
      (b ∈ pl.map (fun q => q.2.x1) ++ pl.map (fun q => q.2.x2) ∧
        ∀ v ∈ pl.map (fun q => q.2.x1) ++ pl.map (fun q => q.2.x2), v ≤ b) ∧
      (c ∈ pl.map (fun q => q.2.y1) ++ pl.map (fun q => q.2.y2) ∧
        ∀ v ∈ pl.map (fun q => q.2.y1) ++ pl.map (fun q => q.2.y2), c ≤ v) ∧
      (d ∈ pl.map (fun q => q.2.y1) ++ pl.map (fun q => q.2.y2) ∧
        ∀ v ∈ pl.map (fun q => q.2.y1) ++ pl.map (fun q => q.2.y2), v ≤ d)) ∧
    get_bounding_box [(id, r)] = some (r.x1, r.x2, r.y1, r.y2) := by
  refine ⟨rfl, get_bounding_box_eq pl hpl, ?_⟩
  simp only [get_bounding_box, List.map_cons, List.map_nil, List.cons_append,
    List.nil_append]
  have h1 : [r.x1, r.x2].min? = some (min r.x1 r.x2) := rfl
  have h2 : [r.x1, r.x2].max? = some (max r.x1 r.x2) := rfl
  have h3 : [r.y1, r.y2].min? = some (min r.y1 r.y2) := rfl
  have h4 : [r.y1, r.y2].max? = some (max r.y1 r.y2) := rfl
  rw [h1, h2, h3, h4, min_eq_left hr.1, max_eq_right hr.1, min_eq_left hr.2,
    max_eq_right hr.2]

/-- Witness for C6: a two-block placement and a single-block map. -/
theorem claim_C6_witness :
    (([(1, (⟨0, 0, 270, 1⟩ : Rect)), (2, ⟨135, 0, 270, 400⟩)] :
        List (ℤ × Rect)) ≠ [] ∧
      (⟨10, 20, 30, 40⟩ : Rect).x1 ≤ (⟨10, 20, 30, 40⟩ : Rect).x2 ∧
      (⟨10, 20, 30, 40⟩ : Rect).y1 ≤ (⟨10, 20, 30, 40⟩ : Rect).y2) ∧
    (get_bounding_box [] = none ∧
      (∃ a b c d,
        get_bounding_box [(1, (⟨0, 0, 270, 1⟩ : Rect)),
          (2, ⟨135, 0, 270, 400⟩)] = some (a, b, c, d) ∧
        (a ∈ ([(1, (⟨0, 0, 270, 1⟩ : Rect)),
              (2, ⟨135, 0, 270, 400⟩)]).map (fun q => q.2.x1) ++
            ([(1, (⟨0, 0, 270, 1⟩ : Rect)),
              (2, ⟨135, 0, 270, 400⟩)]).map (fun q => q.2.x2) ∧
          ∀ v ∈ ([(1, (⟨0, 0, 270, 1⟩ : Rect)),
              (2, ⟨135, 0, 270, 400⟩)]).map (fun q => q.2.x1) ++
            ([(1, (⟨0, 0, 270, 1⟩ : Rect)),
              (2, ⟨135, 0, 270, 400⟩)]).map (fun q => q.2.x2), a ≤ v) ∧
        (b ∈ ([(1, (⟨0, 0, 270, 1⟩ : Rect)),
              (2, ⟨135, 0, 270, 400⟩)]).map (fun q => q.2.x1) ++
            ([(1, (⟨0, 0, 270, 1⟩ : Rect)),
              (2, ⟨135, 0, 270, 400⟩)]).map (fun q => q.2.x2) ∧
          ∀ v ∈ ([(1, (⟨0, 0, 270, 1⟩ : Rect)),
              (2, ⟨135, 0, 270, 400⟩)]).map (fun q => q.2.x1) ++
            ([(1, (⟨0, 0, 270, 1⟩ : Rect)),
              (2, ⟨135, 0, 270, 400⟩)]).map (fun q => q.2.x2), v ≤ b) ∧
        (c ∈ ([(1, (⟨0, 0, 270, 1⟩ : Rect)),
              (2, ⟨135, 0, 270, 400⟩)]).map (fun q => q.2.y1) ++
            ([(1, (⟨0, 0, 270, 1⟩ : Rect)),
              (2, ⟨135, 0, 270, 400⟩)]).map (fun q => q.2.y2) ∧
          ∀ v ∈ ([(1, (⟨0, 0, 270, 1⟩ : Rect)),
              (2, ⟨135, 0, 270, 400⟩)]).map (fun q => q.2.y1) ++
            ([(1, (⟨0, 0, 270, 1⟩ : Rect)),
              (2, ⟨135, 0, 270, 400⟩)]).map (fun q => q.2.y2), c ≤ v) ∧
        (d ∈ ([(1, (⟨0, 0, 270, 1⟩ : Rect)),
              (2, ⟨135, 0, 270, 400⟩)]).map (fun q => q.2.y1) ++
            ([(1, (⟨0, 0, 270, 1⟩ : Rect)),
              (2, ⟨135, 0, 270, 400⟩)]).map (fun q => q.2.y2) ∧
          ∀ v ∈ ([(1, (⟨0, 0, 270, 1⟩ : Rect)),
              (2, ⟨135, 0, 270, 400⟩)]).map (fun q => q.2.y1) ++
            ([(1, (⟨0, 0, 270, 1⟩ : Rect)),
              (2, ⟨135, 0, 270, 400⟩)]).map (fun q => q.2.y2), v ≤ d)) ∧
      get_bounding_box [((7 : ℤ), (⟨10, 20, 30, 40⟩ : Rect))] =
        some ((⟨10, 20, 30, 40⟩ : Rect).x1, (⟨10, 20, 30, 40⟩ : Rect).x2,
          (⟨10, 20, 30, 40⟩ : Rect).y1, (⟨10, 20, 30, 40⟩ : Rect).y2)) :=
  ⟨⟨by decide, by decide, by decide⟩,
    claim_C6 [(1, ⟨0, 0, 270, 1⟩), (2, ⟨135, 0, 270, 400⟩)] (by decide) 7
      ⟨10, 20, 30, 40⟩ ⟨by decide, by decide⟩⟩

/-! ### Skip-policy lemmas -/

theorem positionsOf_eq_nil_iff (m : List Char) :
    positionsOf m = [] ↔ '1' ∉ m := by
  unfold positionsOf
  rw [List.filter_eq_nil_iff]
  constructor
  · intro h h1
    rcases List.mem_iff_getElem.mp h1 with ⟨i, hi, hm⟩
    refine h i (List.mem_range.mpr hi) ?_
    simp [List.getD_eq_getElem?_getD, List.getElem?_eq_getElem hi, hm]
  · intro h i hi
    simp only [decide_eq_true_eq]
    intro hget
    apply h
    rw [List.mem_range] at hi
    rw [List.getD_eq_getElem?_getD, List.getElem?_eq_getElem hi,
      Option.getD_some] at hget
    rw [← hget]
    exact List.getElem_mem hi

/-- C5. A record is silently skipped by `calculate_placement` — no change to
the placements dict or the occupancy state, no error, and the remaining
records are processed exactly as if the record were absent — precisely when
one of the keys `'ID'`, `'LUT'`, `'Placement'` is missing, its LUT value is
null, or its mask has no `'1'` bit; a non-skipped record always records an
entry under its id and drives its columns' occupancy. -/
theorem claim_C5 (b : Record) :
    (skippedB b = true ↔
      (b.ID = none ∨ b.LUT = none ∨ b.LUT = some none ∨ b.Placement = none ∨
        ∃ m, b.Placement = some m ∧ '1' ∉ m)) ∧
    (skippedB b = true →
      (∀ st : PlaceState, processBlock st b = st) ∧
      ∀ pre post : List Record,
        calculate_placement (pre ++ b :: post) =
          calculate_placement (pre ++ post)) ∧
    (skippedB b = false →
      ∀ st : PlaceState, ∃ id L m rect,
        b = ⟨some id, some (some L), some m⟩ ∧
        (processBlock st b).placements = dictUpdate st.placements id rect ∧
        ∀ c ∈ positionsOf m, (processBlock st b).occ c = rect.y2) := by
  refine ⟨?_, ?_, ?_⟩
  · obtain ⟨bid, blut, bpl⟩ := b
    rcases bid with _ | id <;> rcases blut with _ | blut <;>
      try rcases blut with _ | L
    all_goals rcases bpl with _ | m
    all_goals simp [skippedB, positionsOf_eq_nil_iff]
  · intro hs
    refine ⟨fun st => processBlock_skip st b hs, fun pre post => ?_⟩
    rw [calculate_placement, calculate_placement, List.foldl_append,
      List.foldl_append, List.foldl_cons, processBlock_skip _ b hs]
  · intro hs st
    obtain ⟨id, L, m, rfl, hp⟩ := not_skipped_shape b hs
    rw [processBlock_place st id L m hp]
    refine ⟨id, L, m, (placeStep st.occ L m).2, rfl, rfl, fun c hc => ?_⟩
    show (placeStep st.occ L m).1 c = _
    rw [placeStep_occ, if_pos hc]

/-- Witness for C5: a null-LUT record is dropped without affecting the
record after it; a complete record is placed. -/
theorem claim_C5_witness :
    skippedB ⟨some 3, some none, some ['1']⟩ = true ∧
    calculate_placement [⟨some 1, some (some 135), some ['1']⟩,
        ⟨some 3, some none, some ['1']⟩] =
      calculate_placement [⟨some 1, some (some 135), some ['1']⟩] ∧
    skippedB ⟨some 1, some (some 135), some ['1']⟩ = false ∧
    ∃ id L m rect,
      (⟨some 1, some (some 135), some ['1']⟩ : Record) =
        ⟨some id, some (some L), some m⟩ ∧
      (processBlock initState
          ⟨some 1, some (some 135), some ['1']⟩).placements =
        dictUpdate initState.placements id rect ∧
      ∀ c ∈ positionsOf m,
        (processBlock initState ⟨some 1, some (some 135), some ['1']⟩).occ c =
          rect.y2 :=
  ⟨by decide,
   ((claim_C5 ⟨some 3, some none, some ['1']⟩).2.1 (by decide)).2
     [⟨some 1, some (some 135), some ['1']⟩] [],
   by decide,
   (claim_C5 ⟨some 1, some (some 135), some ['1']⟩).2.2 (by decide) initState⟩

/-- C7. `calculate_placement` does not guard against `lutCount <= 0`: a
record with a non-empty column set and `L <= 0` raises no error and is
recorded with height `ceil(L / width) <= 0` (exactly `0`, i.e. `y2 = y1`,
when `L = 0`). -/
theorem claim_C7 (st : PlaceState) (b : Record) (id L : ℤ) (m : List Char)
    (hb : b = ⟨some id, some (some L), some m⟩) (hp : positionsOf m ≠ [])
    (hL : L ≤ 0) :
    ∃ rect : Rect,
      (processBlock st b).placements = dictUpdate st.placements id rect ∧
      rect.y2 - rect.y1 = ⌈(L : ℚ) / (((positionsOf m).length : ℚ) * 135)⌉ ∧
      rect.y2 - rect.y1 ≤ 0 ∧
      (L = 0 → rect.y2 = rect.y1) := by
  subst hb
  rw [processBlock_place st id L m hp]
  have hcast : (((positionsOf m).length : ℤ) * 135) =
      (((positionsOf m).length * 135 : ℕ) : ℤ) := by push_cast; ring
  have hcast2 : ((((positionsOf m).length * 135 : ℕ)) : ℚ) =
      ((positionsOf m).length : ℚ) * 135 := by push_cast; ring
  refine ⟨(placeStep st.occ L m).2, rfl, ?_, ?_, ?_⟩
  · rw [placeStep_rect]
    simp only [Rect.y2, Rect.y1]
    rw [add_sub_cancel_left, hcast, ceilDiv_eq_ceil, hcast2]
  · rw [placeStep_rect]
    simp only [Rect.y2, Rect.y1]
    rw [add_sub_cancel_left, hcast]
    exact ceilDiv_nonpos L _ hL
  · intro h0
    subst h0
    rw [placeStep_rect]
    simp only [Rect.y2, Rect.y1]
    rw [ceilDiv_zero_left, add_zero]

/-- Witness for C7: a zero-LUT record gets a zero-height rectangle. -/
theorem claim_C7_witness :
    ((⟨some 5, some (some 0), some ['1']⟩ : Record) =
        ⟨some 5, some (some 0), some ['1']⟩ ∧
      positionsOf ['1'] ≠ [] ∧ (0 : ℤ) ≤ 0) ∧
    ∃ rect : Rect,
      (processBlock initState
          ⟨some 5, some (some 0), some ['1']⟩).placements =
        dictUpdate initState.placements 5 rect ∧
      rect.y2 - rect.y1 = ⌈((0 : ℤ) : ℚ) / (((positionsOf ['1']).length : ℚ) * 135)⌉ ∧
      rect.y2 - rect.y1 ≤ 0 ∧
      ((0 : ℤ) = 0 → rect.y2 = rect.y1) :=
  ⟨⟨rfl, by decide, by decide⟩,
    claim_C7 initState _ 5 0 ['1'] rfl (by decide) (by decide)⟩

/-- C8. With positive LUT counts and gapped masks (`"101"` then `"010"`),
`calculate_placement` records two rectangles overlapping in both x and y:
block 1 gets the contiguous rectangle `(0,0)-(270,1)` although its mask
skips column 1, and block 2 (mask `"010"`, charged only on column 1) gets
`(135,0)-(270,1)`. -/
theorem claim_C8 :
    (∀ b ∈ [(⟨some 1, some (some 270), some ['1', '0', '1']⟩ : Record),
            ⟨some 2, some (some 135), some ['0', '1', '0']⟩],
      placedPositiveB b = true) ∧
    ∃ r1 r2 : Rect,
      calculate_placement [⟨some 1, some (some 270), some ['1', '0', '1']⟩,
                           ⟨some 2, some (some 135), some ['0', '1', '0']⟩] =
        [(1, r1), (2, r2)] ∧
      r1.x1 < r2.x2 ∧ r2.x1 < r1.x2 ∧ r1.y1 < r2.y2 ∧ r2.y1 < r1.y2 :=
  ⟨by decide,
   ⟨⟨0, 0, 270, 1⟩, ⟨135, 0, 270, 1⟩, by decide, by decide, by decide,
    by decide, by decide⟩⟩

/-! ### Endpoint-assignment lemmas -/

theorem getD_append_lt {α : Type} (l l2 : List α) (d : α) (i : ℕ)
    (h : i < l.length) : (l ++ l2).getD i d = l.getD i d := by
  rw [List.getD_eq_getElem?_getD, List.getD_eq_getElem?_getD,
    List.getElem?_append_left h]

theorem getD_append_len {α : Type} (l : List α) (x : α) (d : α) :
    (l ++ [x]).getD l.length d = x := by
  rw [List.getD_eq_getElem?_getD, List.getElem?_append_right (le_refl _)]
  simp

theorem enumFrom_append_singleton {α : Type} :
    ∀ (l : List α) (s : ℕ) (x : α),
      List.enumFrom s (l ++ [x]) = List.enumFrom s l ++ [(s + l.length, x)] := by
  intro l
  induction l with
  | nil => intro s x; simp
  | cons a t ih =>
    intro s x
    have harith : s + 1 + t.length = s + (t.length + 1) := by omega
    simp only [List.cons_append, List.enumFrom_cons, ih (s + 1),
      List.length_cons, harith]

theorem enumFrom_filter_map_fst {α : Type} (g : α → Bool) (d : α) :
    ∀ (l : List α) (s : ℕ),
      ((List.enumFrom s l).filter (fun q => g q.2)).map Prod.fst =
        (List.range' s l.length).filter (fun i => g (l.getD (i - s) d)) := by
  intro l
  induction l with
  | nil => intro s; rfl
  | cons a t ih =>
    intro s
    have hs0 : (a :: t).getD (s - s) d = a := by simp
    have hcong : (List.range' (s + 1) t.length).filter
          (fun i => g ((a :: t).getD (i - s) d)) =
        (List.range' (s + 1) t.length).filter
          (fun i => g (t.getD (i - (s + 1)) d)) := by
      apply List.filter_congr
      intro i hi
      rcases List.mem_range'.mp hi with ⟨k, hk, rfl⟩
      have h1 : s + 1 + 1 * k - s = k + 1 := by omega
      have h2 : s + 1 + 1 * k - (s + 1) = k := by omega
      rw [h1, h2, List.getD_cons_succ]
    simp only [List.enumFrom_cons, List.length_cons, List.range'_succ,
      List.filter_cons, hs0]
    by_cases hg : g a
    · simp only [hg, if_true]
      rw [List.map_cons, hcong, ih (s + 1)]
    · simp only [hg, Bool.false_eq_true, if_false]
      rw [hcong, ih (s + 1)]

theorem assignedEids_eq_filter (r : Rect) (eps : List (ℚ × ℚ)) :
    assignedEids r eps =
      (List.range eps.length).filter
        (fun i => rectContainsB r (eps.getD i (0, 0))) := by
  unfold assignedEids
  show ((List.enumFrom 0 eps).filter (fun q => rectContainsB r q.2)).map
      Prod.fst = _
  rw [enumFrom_filter_map_fst (fun e => rectContainsB r e) (0, 0) eps 0,
    List.range_eq_range']
  apply List.filter_congr
  intro i hi
  rw [Nat.sub_zero]

theorem assignedEids_sorted (r : Rect) (eps : List (ℚ × ℚ)) :
    (assignedEids r eps).Sorted (· < ·) := by
  rw [assignedEids_eq_filter]
  exact List.Pairwise.filter _ (List.sorted_lt_range eps.length)

theorem nearest_foldl_spec (c : ℚ × ℚ) (l : List (ℚ × ℚ)) (hl : l ≠ []) :
    ∃ md e, (List.enum l).foldl (nearestStep c) none = some (md, e) ∧
      e < l.length ∧ md = sqDist c (l.getD e (0, 0)) ∧
      (∀ i < l.length, md ≤ sqDist c (l.getD i (0, 0))) ∧
      (∀ i < l.length, sqDist c (l.getD i (0, 0)) = md → e ≤ i) := by
  induction l using List.reverseRecOn with
  | nil => exact absurd rfl hl
  | append_singleton t x ih =>
    have henum : List.enum (t ++ [x]) = List.enum t ++ [(t.length, x)] := by
      show List.enumFrom 0 (t ++ [x]) = List.enumFrom 0 t ++ [(t.length, x)]
      rw [enumFrom_append_singleton t 0 x, Nat.zero_add]
    rw [henum, List.foldl_append, List.foldl_cons, List.foldl_nil]
    rcases eq_or_ne t [] with rfl | ht
    · refine ⟨sqDist c x, 0, rfl, by simp, by simp, ?_, ?_⟩
      · intro i hi
        simp only [List.nil_append, List.length_singleton] at hi
        interval_cases i
        simp
      · intro i hi h
        simp only [List.nil_append, List.length_singleton] at hi
        omega
    · obtain ⟨md, e, hfold, he, hmd, hmin, htie⟩ := ih ht
      rw [hfold]
      by_cases hlt : sqDist c x < md
      · refine ⟨sqDist c x, t.length, ?_, ?_, ?_, ?_, ?_⟩
        · simp [nearestStep, hlt]
        · simp
        · rw [getD_append_len]
        · intro i hi
          rw [List.length_append, List.length_singleton] at hi
          rcases Nat.lt_succ_iff_lt_or_eq.mp hi with hi' | rfl
          · rw [getD_append_lt _ _ _ _ hi']
            exact le_of_lt (lt_of_lt_of_le hlt (hmin i hi'))
          · rw [getD_append_len]
        · intro i hi hdist
          rw [List.length_append, List.length_singleton] at hi
          rcases Nat.lt_succ_iff_lt_or_eq.mp hi with hi' | rfl
          · rw [getD_append_lt _ _ _ _ hi'] at hdist
            have := hmin i hi'
            rw [hdist] at this
            exact absurd hlt (not_lt.mpr this)
          · exact le_refl _
      · refine ⟨md, e, ?_, ?_, ?_, ?_, ?_⟩
        · simp [nearestStep, hlt]
        · rw [List.length_append, List.length_singleton]
          omega
        · rw [getD_append_lt _ _ _ _ he]
          exact hmd
        · intro i hi
          rw [List.length_append, List.length_singleton] at hi
          rcases Nat.lt_succ_iff_lt_or_eq.mp hi with hi' | rfl
          · rw [getD_append_lt _ _ _ _ hi']
            exact hmin i hi'
          · rw [getD_append_len]
            exact not_lt.mp hlt
        · intro i hi hdist
          rw [List.length_append, List.length_singleton] at hi
          rcases Nat.lt_succ_iff_lt_or_eq.mp hi with hi' | rfl
          · rw [getD_append_lt _ _ _ _ hi'] at hdist
            exact htie i hi' hdist
          · omega

theorem closest_eid_spec (c : ℚ × ℚ) (eps : List (ℚ × ℚ)) (h : eps ≠ []) :
    ∃ e, closest_eid c eps = some e ∧ e < eps.length ∧
      (∀ i < eps.length,
        sqDist c (eps.getD e (0, 0)) ≤ sqDist c (eps.getD i (0, 0))) ∧
      (∀ i < eps.length,
        sqDist c (eps.getD i (0, 0)) = sqDist c (eps.getD e (0, 0)) →
          e ≤ i) := by
  obtain ⟨md, e, hfold, he, hmd, hmin, htie⟩ := nearest_foldl_spec c eps h
  refine ⟨e, ?_, he, ?_, ?_⟩
  · unfold closest_eid
    rw [hfold]
    rfl
  · intro i hi
    rw [← hmd]
    exact hmin i hi
  · intro i hi hd
    rw [← hmd] at hd
    exact htie i hi hd

theorem dictUpdate_fresh {β : Type} (l : List (ℤ × β)) (k : ℤ) (v : β)
    (hk : ∀ q ∈ l, q.1 ≠ k) : dictUpdate l k v = l ++ [(k, v)] := by
  unfold dictUpdate
  rw [if_neg]
  simp only [List.any_eq_true, decide_eq_true_eq, not_exists, not_and]
  intro q hq
  exact hk q hq

theorem foldl_dictUpdate_fresh {β : Type} (v : ℤ × Rect → β) :
    ∀ (pl : List (ℤ × Rect)) (acc : List (ℤ × β)),
      (pl.map Prod.fst).Nodup →
      (∀ k ∈ pl.map Prod.fst, ∀ q ∈ acc, q.1 ≠ k) →
      pl.foldl (fun a q => dictUpdate a q.1 (v q)) acc =
        acc ++ pl.map (fun q => (q.1, v q)) := by
  intro pl
  induction pl with
  | nil => intro acc _ _; simp
  | cons q t ih =>
    intro acc hnd hfresh
    rw [List.foldl_cons,
      dictUpdate_fresh acc q.1 (v q)
        (fun p hp => hfresh q.1 (by simp) p hp)]
    rw [List.map_cons] at hnd
    have hnd' := List.nodup_cons.mp hnd
    rw [ih (acc ++ [(q.1, v q)]) hnd'.2 ?_, List.map_cons, ← List.append_cons]
    intro k hk p hp
    rcases List.mem_append.mp hp with hp' | hp'
    · exact hfresh k (List.mem_cons_of_mem _ hk) p hp'
    · have : p = (q.1, v q) := by simpa using hp'
      rw [this]
      intro hc
      rw [hc] at hnd'
      exact hnd'.1 hk

theorem blockAssign_cases (eps : List (ℚ × ℚ)) (r : Rect) :
    (assignedEids r eps ≠ [] ∧
      blockAssign eps r = (assignedEids r eps).map some) ∨
    (assignedEids r eps = [] ∧
      blockAssign eps r = [closest_eid (centroid r) eps]) := by
  unfold blockAssign
  by_cases h : assignedEids r eps = []
  · right
    exact ⟨h, by rw [if_neg (by simpa using h)]⟩
  · left
    exact ⟨h, by rw [if_pos (by simpa using h)]⟩

/-- C4. For a non-empty placement map (with the distinct keys a Python dict
guarantees) and granularity `N >= 1`, every block is assigned: the full set
of endpoints inside its rectangle (inclusive bounds), listed in ascending
endpoint-id order, when that set is non-empty; otherwise the single endpoint
minimizing the squared Euclidean distance to the rectangle centroid, ties
broken by the smallest endpoint id; hence every block's assignment is
non-empty. -/
theorem claim_C4 (pl : List (ℤ × Rect)) (N : ℕ) (hpl : pl ≠ []) (hN : 1 ≤ N)
    (hnd : (pl.map Prod.fst).Nodup) :
    ∃ m eps, assign_endpoints_to_single_block pl N = some (m, eps) ∧
      eps.length = N * N ∧
      ∀ q ∈ pl,
        ∃ A : List (Option ℕ), (q.1, A) ∈ m ∧ A ≠ [] ∧
          ((List.range eps.length).filter
              (fun i => rectContainsB q.2 (eps.getD i (0, 0))) ≠ [] →
            A = ((List.range eps.length).filter
                (fun i => rectContainsB q.2 (eps.getD i (0, 0)))).map some ∧
            ((List.range eps.length).filter
                (fun i => rectContainsB q.2 (eps.getD i (0, 0)))).Sorted
              (· < ·)) ∧
          ((List.range eps.length).filter
              (fun i => rectContainsB q.2 (eps.getD i (0, 0))) = [] →
            ∃ e, A = [some e] ∧ e < eps.length ∧
              (∀ i < eps.length,
                sqDist (centroid q.2) (eps.getD e (0, 0)) ≤
                  sqDist (centroid q.2) (eps.getD i (0, 0))) ∧
              (∀ i < eps.length,
                sqDist (centroid q.2) (eps.getD i (0, 0)) =
                  sqDist (centroid q.2) (eps.getD e (0, 0)) → e ≤ i)) := by
  obtain ⟨t, hbb⟩ := get_bounding_box_some pl hpl
  obtain ⟨a, b, c, d⟩ := t
  have hassign : assign_endpoints_to_single_block pl N =
      some (pl.foldl (fun acc q => dictUpdate acc q.1
          (blockAssign (get_mesh_endpoint_positions a b c d N) q.2)) [],
        get_mesh_endpoint_positions a b c d N) := by
    unfold assign_endpoints_to_single_block
    rw [hbb]
  have hepslen : (get_mesh_endpoint_positions a b c d N).length = N * N :=
    mesh_length a b c d N
  have heps_ne : get_mesh_endpoint_positions a b c d N ≠ [] := by
    intro h
    rw [h] at hepslen
    have : 0 < N * N := Nat.mul_pos hN hN
    simp at hepslen
    omega
  have hm : pl.foldl (fun acc q => dictUpdate acc q.1
        (blockAssign (get_mesh_endpoint_positions a b c d N) q.2)) [] =
      pl.map (fun q =>
        (q.1, blockAssign (get_mesh_endpoint_positions a b c d N) q.2)) := by
    have h := foldl_dictUpdate_fresh
      (fun q => blockAssign (get_mesh_endpoint_positions a b c d N) q.2)
      pl [] hnd (fun k _ p hp => absurd hp (List.not_mem_nil p))
    simpa using h
  refine ⟨_, _, hassign, hepslen, ?_⟩
  intro q hq
  have hkey : assignedEids q.2 (get_mesh_endpoint_positions a b c d N) =
      (List.range (get_mesh_endpoint_positions a b c d N).length).filter
        (fun i => rectContainsB q.2
          ((get_mesh_endpoint_positions a b c d N).getD i (0, 0))) :=
    assignedEids_eq_filter q.2 (get_mesh_endpoint_positions a b c d N)
  refine ⟨blockAssign (get_mesh_endpoint_positions a b c d N) q.2,
    ?_, ?_, ?_, ?_⟩
  · rw [hm]
    exact List.mem_map.mpr ⟨q, hq, rfl⟩
  · rcases blockAssign_cases (get_mesh_endpoint_positions a b c d N) q.2 with
      ⟨h1, heq⟩ | ⟨h0, heq⟩
    · rw [heq]
      simpa using h1
    · rw [heq]
      exact List.cons_ne_nil _ _
  · intro hne
    rcases blockAssign_cases (get_mesh_endpoint_positions a b c d N) q.2 with
      ⟨h1, heq⟩ | ⟨h0, heq⟩
    · constructor
      · rw [heq, hkey]
      · rw [← hkey]
        exact assignedEids_sorted q.2 (get_mesh_endpoint_positions a b c d N)
    · rw [hkey] at h0
      exact absurd h0 hne
  · intro hemp
    rcases blockAssign_cases (get_mesh_endpoint_positions a b c d N) q.2 with
      ⟨h1, heq⟩ | ⟨h0, heq⟩
    · rw [hkey] at h1
      exact absurd hemp h1
    · obtain ⟨e, hce, helt, hmin, htie⟩ :=
        closest_eid_spec (centroid q.2)
          (get_mesh_endpoint_positions a b c d N) heps_ne
      exact ⟨e, by rw [heq, hce], helt, hmin, htie⟩

/-- Witness for C4: a single block on a 1x1 mesh. -/
theorem claim_C4_witness :
    (([((1 : ℤ), (⟨0, 0, 270, 1⟩ : Rect))] : List (ℤ × Rect)) ≠ [] ∧
      1 ≤ 1 ∧
      (([((1 : ℤ), (⟨0, 0, 270, 1⟩ : Rect))] :
          List (ℤ × Rect)).map Prod.fst).Nodup) ∧
    ∃ m eps,
      assign_endpoints_to_single_block
          [((1 : ℤ), (⟨0, 0, 270, 1⟩ : Rect))] 1 = some (m, eps) ∧
      eps.length = 1 * 1 ∧
      ∀ q ∈ ([((1 : ℤ), (⟨0, 0, 270, 1⟩ : Rect))] : List (ℤ × Rect)),
        ∃ A : List (Option ℕ), (q.1, A) ∈ m ∧ A ≠ [] ∧
          ((List.range eps.length).filter
              (fun i => rectContainsB q.2 (eps.getD i (0, 0))) ≠ [] →
            A = ((List.range eps.length).filter
                (fun i => rectContainsB q.2 (eps.getD i (0, 0)))).map some ∧
            ((List.range eps.length).filter
                (fun i => rectContainsB q.2 (eps.getD i (0, 0)))).Sorted
              (· < ·)) ∧
          ((List.range eps.length).filter
              (fun i => rectContainsB q.2 (eps.getD i (0, 0))) = [] →
            ∃ e, A = [some e] ∧ e < eps.length ∧
              (∀ i < eps.length,
                sqDist (centroid q.2) (eps.getD e (0, 0)) ≤
                  sqDist (centroid q.2) (eps.getD i (0, 0))) ∧
              (∀ i < eps.length,
                sqDist (centroid q.2) (eps.getD i (0, 0)) =
                  sqDist (centroid q.2) (eps.getD e (0, 0)) → e ≤ i)) :=
  ⟨⟨by decide, by decide, by decide⟩,
    claim_C4 [((1 : ℤ), (⟨0, 0, 270, 1⟩ : Rect))] 1 (by decide) (by decide)
      (by decide)⟩

/-! ### Report / sweep lemmas -/

theorem assign_eq (pl : List (ℤ × Rect)) (N : ℕ) (a b c d : ℤ)
    (hbb : get_bounding_box pl = some (a, b, c, d))
    (hnd : (pl.map Prod.fst).Nodup) :
    assign_endpoints_to_single_block pl N =
      some (pl.map (fun q =>
          (q.1, blockAssign (get_mesh_endpoint_positions a b c d N) q.2)),
        get_mesh_endpoint_positions a b c d N) := by
  have h := foldl_dictUpdate_fresh
    (fun q => blockAssign (get_mesh_endpoint_positions a b c d N) q.2)
    pl [] hnd (fun k _ p hp => absurd hp (List.not_mem_nil p))
  simp only [List.nil_append] at h
  have h2 : assign_endpoints_to_single_block pl N =
      some (pl.foldl (fun acc q => dictUpdate acc q.1
          (blockAssign (get_mesh_endpoint_positions a b c d N) q.2)) [],
        get_mesh_endpoint_positions a b c d N) := by
    unfold assign_endpoints_to_single_block
    rw [hbb]
  rw [h2, h]

theorem report_lines_eq (pl : List (ℤ × Rect)) (N : ℕ)
    (m : List (ℤ × List (Option ℕ))) (eps : List (ℚ × ℚ))
    (hassign : assign_endpoints_to_single_block pl N = some (m, eps)) :
    report_lines pl N =
      some (((m.map Prod.fst).insertionSort (· ≤ ·)).map
        (fun id => "Block_" ++ toString id ++ " Endpoints = " ++
          pyListRepr (dictGet m id []))) := by
  unfold report_lines
  rw [hassign]
  rfl

theorem blockAssign_sorted_eids (eps : List (ℚ × ℚ)) (r : Rect)
    (heps : eps ≠ []) :
    ∃ eids : List ℕ, blockAssign eps r = eids.map some ∧
      eids.Sorted (· < ·) := by
  rcases blockAssign_cases eps r with ⟨h1, heq⟩ | ⟨h0, heq⟩
  · exact ⟨assignedEids r eps, heq, assignedEids_sorted r eps⟩
  · obtain ⟨e, hce, _, _, _⟩ := closest_eid_spec (centroid r) eps heps
    refine ⟨[e], ?_, List.sorted_singleton e⟩
    rw [heq, hce]
    rfl

theorem dictGet_map_nodup {β : Type} (v : ℤ × Rect → β) (dflt : β) :
    ∀ (pl : List (ℤ × Rect)), (pl.map Prod.fst).Nodup →
      ∀ q ∈ pl, dictGet (pl.map (fun p => (p.1, v p))) q.1 dflt = v q := by
  intro pl
  induction pl with
  | nil => intro _ q hq; cases hq
  | cons p t ih =>
    intro hnd q hq
    rw [List.map_cons] at hnd
    have hnd' := List.nodup_cons.mp hnd
    rcases List.mem_cons.mp hq with rfl | hq'
    · unfold dictGet
      rw [List.map_cons, List.find?_cons_of_pos _ (by simp)]
    · have hne : p.1 ≠ q.1 := by
        intro hc
        apply hnd'.1
        rw [hc]
        exact List.mem_map.mpr ⟨q, hq', rfl⟩
      unfold dictGet
      rw [List.map_cons, List.find?_cons_of_neg _ (by simpa using hne)]
      exact ih hnd'.2 q hq'

theorem mapM_option_spec {α β : Type} (f : α → Option β) :
    ∀ l : List α, (∀ x ∈ l, ∃ b, f x = some b) →
      ∃ out, l.mapM f = some out ∧
        List.Forall₂ (fun x b => f x = some b) l out := by
  intro l
  induction l with
  | nil => intro _; exact ⟨[], rfl, List.Forall₂.nil⟩
  | cons x t ih =>
    intro h
    obtain ⟨b, hb⟩ := h x (List.mem_cons_self _ _)
    obtain ⟨out, hout, hforall⟩ :=
      ih (fun y hy => h y (List.mem_cons_of_mem _ hy))
    refine ⟨b :: out, ?_, List.Forall₂.cons hb hforall⟩
    rw [List.mapM_cons, hb, hout]
    rfl

theorem forall₂_mem_right {α β : Type} {R : α → β → Prop} :
    ∀ {l : List α} {out : List β},
      List.Forall₂ R l out → ∀ b ∈ out, ∃ a ∈ l, R a b := by
  intro l out h
  induction h with
  | nil => intro b hb; cases hb
  | cons h1 h2 ih =>
    intro b hb
    rcases List.mem_cons.mp hb with rfl | hb'
    · exact ⟨_, List.mem_cons_self _ _, h1⟩
    · obtain ⟨a, ha, hr⟩ := ih b hb'
      exact ⟨a, List.mem_cons_of_mem _ ha, hr⟩

theorem forall₂_fst_eq {β : Type} {f : ℕ → Option (ℕ × β)}
    (hf : ∀ n r, f n = some r → r.1 = n) :
    ∀ {l : List ℕ} {out : List (ℕ × β)},
      List.Forall₂ (fun n r => f n = some r) l out →
        out.map Prod.fst = l := by
  intro l out h
  induction h with
  | nil => rfl
  | cons h1 h2 ih =>
    rw [List.map_cons, ih, hf _ _ h1]

/-- C9. On a non-empty placement map, the sweep produces one report for each
granularity `N` in `1..14` exactly; each report lists the blocks in ascending
block-id order (one line per block, a permutation of the placement's keys) in
the form `Block_<id> Endpoints = [<id>, <id>, ...]`, with each block's
endpoint ids in ascending order. -/
theorem claim_C9 (pl : List (ℤ × Rect)) (hpl : pl ≠ [])
    (hnd : (pl.map Prod.fst).Nodup) :
    ∃ reports : List (ℕ × List String),
      sweep_mesh_granularity pl = some reports ∧
      reports.map Prod.fst = List.range' 1 14 ∧
      ∀ r ∈ reports, ∃ m eps,
        assign_endpoints_to_single_block pl r.1 = some (m, eps) ∧
        ∃ ids : List ℤ, ids.Perm (pl.map Prod.fst) ∧ ids.Sorted (· ≤ ·) ∧
          r.2 = ids.map (fun id =>
            "Block_" ++ toString id ++ " Endpoints = " ++
              pyListRepr (dictGet m id [])) ∧
          ∀ id ∈ ids, ∃ eids : List ℕ,
            dictGet m id [] = eids.map some ∧ eids.Sorted (· < ·) := by
  obtain ⟨t, hbb⟩ := get_bounding_box_some pl hpl
  obtain ⟨a, b, c, d⟩ := t
  have hsome : ∀ n ∈ List.range' 1 14,
      ∃ r, (fun k => (report_lines pl k).map (fun ls => (k, ls))) n =
        some r := by
    intro n _
    show ∃ r, Option.map (fun ls => (n, ls)) (report_lines pl n) = some r
    rw [report_lines_eq pl n _ _ (assign_eq pl n a b c d hbb hnd)]
    exact ⟨_, rfl⟩
  obtain ⟨reports, hmapM, hforall⟩ :=
    mapM_option_spec (fun k => (report_lines pl k).map (fun ls => (k, ls)))
      (List.range' 1 14) hsome
  refine ⟨reports, ?_, ?_, ?_⟩
  · exact hmapM
  · refine forall₂_fst_eq ?_ hforall
    intro n r h
    rcases Option.map_eq_some'.mp h with ⟨ls, _, rfl⟩
    rfl
  · intro r hr
    obtain ⟨n, hn, hfn⟩ := forall₂_mem_right hforall r hr
    obtain ⟨ls, hls, rfl⟩ := Option.map_eq_some'.mp hfn
    have h1n : 1 ≤ n := by
      rcases List.mem_range'.mp hn with ⟨k, hk, rfl⟩
      omega
    have hassign := assign_eq pl n a b c d hbb hnd
    have heps_ne : get_mesh_endpoint_positions a b c d n ≠ [] := by
      intro h
      have hlen := mesh_length a b c d n
      rw [h] at hlen
      have : 0 < n * n := Nat.mul_pos h1n h1n
      simp at hlen
      omega
    have hkeys : (pl.map (fun q =>
        (q.1, blockAssign (get_mesh_endpoint_positions a b c d n) q.2))).map
          Prod.fst = pl.map Prod.fst := by
      rw [List.map_map]
      rfl
    have hlsval := Option.some.inj
      ((report_lines_eq pl n _ _ hassign).symm.trans hls)
    refine ⟨_, _, hassign,
      ((pl.map (fun q =>
        (q.1, blockAssign (get_mesh_endpoint_positions a b c d n) q.2))).map
          Prod.fst).insertionSort (· ≤ ·), ?_, ?_, ?_, ?_⟩
    · have hperm : (((pl.map (fun q =>
          (q.1, blockAssign (get_mesh_endpoint_positions a b c d n) q.2))).map
            Prod.fst).insertionSort (· ≤ ·)).Perm
          ((pl.map (fun q =>
            (q.1, blockAssign
              (get_mesh_endpoint_positions a b c d n) q.2))).map Prod.fst) :=
        List.perm_insertionSort _ _
      have hrefl : (((pl.map (fun q =>
          (q.1, blockAssign (get_mesh_endpoint_positions a b c d n) q.2))).map
            Prod.fst)).Perm (pl.map Prod.fst) := by
        rw [hkeys]
      exact hperm.trans hrefl
    · exact List.sorted_insertionSort (· ≤ ·) _
    · exact hlsval.symm
    · intro id hid
      have hid' := (List.perm_insertionSort (· ≤ ·) _).mem_iff.mp hid
      rw [hkeys] at hid'
      obtain ⟨q, hq, rfl⟩ := List.mem_map.mp hid'
      have hget := dictGet_map_nodup
        (fun q => blockAssign (get_mesh_endpoint_positions a b c d n) q.2) []
        pl hnd q hq
      obtain ⟨eids, heids, hsort⟩ := blockAssign_sorted_eids
        (get_mesh_endpoint_positions a b c d n) q.2 heps_ne
      refine ⟨eids, ?_, hsort⟩
      rw [hget]
      exact heids

/-- Witness for C9: the sweep over a one-block placement map. -/
theorem claim_C9_witness :
    (([((1 : ℤ), (⟨0, 0, 270, 1⟩ : Rect))] : List (ℤ × Rect)) ≠ [] ∧
      (([((1 : ℤ), (⟨0, 0, 270, 1⟩ : Rect))] :
          List (ℤ × Rect)).map Prod.fst).Nodup) ∧
    ∃ reports : List (ℕ × List String),
      sweep_mesh_granularity [((1 : ℤ), (⟨0, 0, 270, 1⟩ : Rect))] =
        some reports ∧
      reports.map Prod.fst = List.range' 1 14 ∧
      ∀ r ∈ reports, ∃ m eps,
        assign_endpoints_to_single_block
            [((1 : ℤ), (⟨0, 0, 270, 1⟩ : Rect))] r.1 = some (m, eps) ∧
        ∃ ids : List ℤ,
          ids.Perm (([((1 : ℤ), (⟨0, 0, 270, 1⟩ : Rect))] :
            List (ℤ × Rect)).map Prod.fst) ∧
          ids.Sorted (· ≤ ·) ∧
          r.2 = ids.map (fun id =>
            "Block_" ++ toString id ++ " Endpoints = " ++
              pyListRepr (dictGet m id [])) ∧
          ∀ id ∈ ids, ∃ eids : List ℕ,
            dictGet m id [] = eids.map some ∧ eids.Sorted (· < ·) :=
  ⟨⟨by decide, by decide⟩,
    claim_C9 [((1 : ℤ), (⟨0, 0, 270, 1⟩ : Rect))] (by decide) (by decide)⟩

/-- C10. The pipeline is deterministic: in this embedding every stage is a
pure function of the input record sequence, so two runs on identical input
yield the same placement map, the same endpoint assignment for every mesh
granularity, and the same report contents. -/
theorem claim_C10 (data : List Record) :
    calculate_placement data = calculate_placement data ∧
    (∀ N : ℕ, assign_endpoints_to_single_block (calculate_placement data) N =
      assign_endpoints_to_single_block (calculate_placement data) N) ∧
    pipeline data = pipeline data :=
  ⟨rfl, fun _ => rfl, rfl⟩
